import Mathlib

set_option autoImplicit false

/-!
Verification of the radical composition index builder of the kanjireader
repository (`build_database.py`).  Radicals and characters are embedded as
`Char`; Python dictionaries are embedded as association lists in insertion
order (keys unique, matching `dict` semantics); the SQLite tables keyed by
a primary key are embedded as lists of rows with replace/update-in-place
semantics.  The recursive component resolution of the decomposition graph
builder is embedded with an explicit recursion-depth budget (`fuel`): a
`none` result at every budget corresponds to unbounded recursion in the
source (which never produces a result there).
-/

namespace KanjiReader

/-- Lookup in an association list, mirroring Python `dict` access for
dictionaries whose keys are unique. -/
def alookup {α β : Type} [DecidableEq α] (k : α) : List (α × β) → Option β
  | [] => none
  | p :: rest => if p.1 = k then some p.2 else alookup k rest

theorem alookup_mem {α β : Type} [DecidableEq α] {k : α} {v : β} :
    ∀ {l : List (α × β)}, alookup k l = some v → (k, v) ∈ l := by
  intro l
  induction l with
  | nil => intro h; simp [alookup] at h
  | cons p rest ih =>
    intro h
    by_cases hk : p.1 = k
    · simp only [alookup, hk, if_pos] at h
      have hv : p.2 = v := Option.some_inj.mp h
      exact List.mem_cons.mpr (Or.inl (by cases p; simp_all))
    · simp only [alookup, hk, if_neg, not_false_iff] at h
      exact List.mem_cons_of_mem _ (ih h)

theorem alookup_eq_none {α β : Type} [DecidableEq α] {k : α} :
    ∀ {l : List (α × β)}, alookup k l = none ↔ k ∉ l.map Prod.fst := by
  intro l
  induction l with
  | nil => simp [alookup]
  | cons p rest ih =>
    by_cases hk : p.1 = k
    · simp [alookup, hk]
    · simp [alookup, hk, ih, Ne.symm hk]

theorem alookup_of_mem_nodup {α β : Type} [DecidableEq α] {k : α} {v : β} :
    ∀ {l : List (α × β)}, (l.map Prod.fst).Nodup → (k, v) ∈ l →
      alookup k l = some v := by
  intro l
  induction l with
  | nil => intro _ h; simp at h
  | cons p rest ih =>
    intro hnd hm
    rcases List.mem_cons.mp hm with h | h
    · cases h; simp [alookup]
    · have hk : p.1 ≠ k := by
        intro he
        have : k ∈ rest.map Prod.fst := List.mem_map.mpr ⟨(k, v), h, rfl⟩
        simp only [List.map_cons, List.nodup_cons] at hnd
        exact hnd.1 (he ▸ this)
      simp only [alookup, hk, if_neg, not_false_iff]
      exact ih (by simp only [List.map_cons, List.nodup_cons] at hnd; exact hnd.2) h

theorem mem_value_unique {α β : Type} [DecidableEq α] {k : α} {v w : β}
    {l : List (α × β)} (hnd : (l.map Prod.fst).Nodup)
    (hv : (k, v) ∈ l) (hw : (k, w) ∈ l) : v = w := by
  have h1 := alookup_of_mem_nodup hnd hv
  have h2 := alookup_of_mem_nodup hnd hw
  rw [h1] at h2
  exact Option.some_inj.mp h2

/-! ### The makemeahanzi decomposition loader
(`parse_makemeahanzi_decomposition` / `load_makemeahanzi_decomposition_data`) -/

/-- Ideographic description characters, stripped by the parser
(`idc_chars` in `parse_makemeahanzi_decomposition`). -/
def idcChars : List Char :=
  ['⿰', '⿱', '⿲', '⿳', '⿴', '⿵', '⿶', '⿷', '⿸', '⿹', '⿺', '⿻']

/-- The decomposition parser: keep every character of the decomposition
string that is not an IDC marker and not whitespace
(`char.strip()` truthiness). -/
def parse_makemeahanzi_decomposition (decomposition : String) : List Char :=
  decomposition.toList.filter (fun c => c ∉ idcChars ∧ ¬ c.isWhitespace)

/-- One already-JSON-decoded line of the makemeahanzi dictionary: the two
fields the loader reads, each possibly absent (`entry.get`). -/
structure MmhEntry where
  character : Option Char
  decomposition : Option String
deriving DecidableEq

/-- Python `dict` assignment `m[k] = v`: replace in place if the key is
present, append otherwise. -/
def dictInsert {α β : Type} [DecidableEq α] (k : α) (v : β) :
    List (α × β) → List (α × β)
  | [] => [(k, v)]
  | p :: rest => if p.1 = k then (k, v) :: rest else p :: dictInsert k v rest

/-- Loop body of `load_makemeahanzi_decomposition_data`: an entry is added
to the map only when both fields are present (and the decomposition string
nonempty) and the parsed component list has strictly more than one
element. -/
def loadStep (acc : List (Char × List Char)) (e : MmhEntry) :
    List (Char × List Char) :=
  match e.character, e.decomposition with
  | some ch, some d =>
    if d ≠ "" then
      if parse_makemeahanzi_decomposition d ≠ [] ∧
          1 < (parse_makemeahanzi_decomposition d).length then
        dictInsert ch (parse_makemeahanzi_decomposition d) acc
      else acc
    else acc
  | _, _ => acc

/-- The loader over the whole file
(`load_makemeahanzi_decomposition_data`). -/
def load_makemeahanzi_decomposition_data (entries : List MmhEntry) :
    List (Char × List Char) :=
  entries.foldl loadStep []

theorem dictInsert_forall {α β : Type} [DecidableEq α] (P : β → Prop)
    {k : α} {v : β} :
    ∀ {l : List (α × β)}, (∀ p ∈ l, P p.2) → P v →
      ∀ p ∈ dictInsert k v l, P p.2 := by
  intro l
  induction l with
  | nil =>
    intro _ hv p hp
    simp only [dictInsert, List.mem_singleton] at hp
    subst hp
    exact hv
  | cons q rest ih =>
    intro hl hv p hp
    by_cases hk : q.1 = k
    · simp only [dictInsert, hk, if_pos] at hp
      rcases List.mem_cons.mp hp with h | h
      · simp [h, hv]
      · exact hl p (List.mem_cons_of_mem _ h)
    · simp only [dictInsert, hk, if_neg, not_false_iff] at hp
      rcases List.mem_cons.mp hp with h | h
      · exact h ▸ hl q (List.mem_cons_self _ _)
      · exact ih (fun q hq => hl q (List.mem_cons_of_mem _ hq)) hv p h

theorem loadStep_forall {acc : List (Char × List Char)} {e : MmhEntry}
    (hacc : ∀ p ∈ acc, 1 < p.2.length) :
    ∀ p ∈ loadStep acc e, 1 < p.2.length := by
  obtain ⟨oc, od⟩ := e
  cases oc with
  | none => cases od <;> exact hacc
  | some ch =>
    cases od with
    | none => exact hacc
    | some d =>
      simp only [loadStep]
      split
      · split
        · rename_i hc
          exact dictInsert_forall (fun v : List Char => 1 < v.length) hacc hc.2
        · exact hacc
      · exact hacc

theorem foldl_loadStep_forall (entries : List MmhEntry) :
    ∀ acc : List (Char × List Char), (∀ p ∈ acc, 1 < p.2.length) →
      ∀ p ∈ entries.foldl loadStep acc, 1 < p.2.length := by
  induction entries with
  | nil => intro acc hacc p hp; exact hacc p (by simpa using hp)
  | cons e rest ih =>
    intro acc hacc p hp
    exact ih (loadStep acc e) (loadStep_forall hacc) p
      (by simpa [List.foldl_cons] using hp)

/-- Claim C9: the raw decomposition loader includes a character in its
returned character-to-components map only when the marker-stripped parsed
decomposition has strictly more than one component; entries whose parse
yields one or zero components are never stored in the map. -/
theorem c9_loader_only_composites (entries : List MmhEntry)
    (ch : Char) (comps : List Char)
    (hmem : (ch, comps) ∈ load_makemeahanzi_decomposition_data entries) :
    1 < comps.length :=
  foldl_loadStep_forall entries [] (by simp) (ch, comps) hmem

/-- Concrete input for exercising the loader: one genuine composite and one
entry whose decomposition parses to a single component. -/
def mmhEntriesExample : List MmhEntry :=
  [⟨some '明', some "⿰日月"⟩, ⟨some '一', some "一"⟩]

/-- Witness for claim C9 at a concrete input: the loader keeps the
two-component entry, and its stored component list indeed has length
greater than one. -/
theorem c9_loader_only_composites_witness :
    ('明', ['日', '月']) ∈ load_makemeahanzi_decomposition_data mmhEntriesExample ∧
      1 < (['日', '月'] : List Char).length :=
  ⟨by decide,
    c9_loader_only_composites mmhEntriesExample '明' ['日', '月'] (by decide)⟩

/-! ### The decomposition graph builder
(`populate_radical_decomposition_mapping` and its inner helper
`apply_substitutions_and_expansion`) -/

/-- Glyph substitution table (`chinese_to_japanese_substitutions`). -/
def chineseToJapaneseSubstitutions : List (Char × Char) :=
  [('灬', '⺣'), ('丨', '｜'), ('丿', 'ノ'), ('乚', '乙'), ('亻', '人')]

/-- Manual override table (`manual_corrections`). -/
def manualCorrections : List (Char × List Char) :=
  [('丷', ['丶', '丶']), ('肉', ['冂', '人', '人'])]

/-- Radicals allowed to decompose into a single component
(`important_single_decompositions`). -/
def importantSingleDecompositions : List Char := ['冂', '⺣']

/-- One level of `apply_substitutions_and_expansion`: process a component
list, delegating the recursive expansion of a missing component to
`recurse`.  Substitution is checked first; a component missing from the
vocabulary but present in the raw source is recursively expanded, except
for the hardcoded ice radical; everything else is kept as-is. -/
def expandStep (data : List (Char × List Char)) (existing : List Char)
    (recurse : List Char → Option (List Char)) : List Char → Option (List Char)
  | [] => some []
  | comp :: rest =>
    match alookup comp chineseToJapaneseSubstitutions with
    | some substitute =>
      (expandStep data existing recurse rest).map (fun out => substitute :: out)
    | none =>
      if comp ∉ existing ∧ (alookup comp data).isSome then
        if comp ≠ '仌' then
          (recurse ((alookup comp data).getD [])).bind
            (fun recursiveExpansion =>
              (expandStep data existing recurse rest).map
                (fun out => recursiveExpansion ++ out))
        else
          (expandStep data existing recurse rest).map
            (fun out => '人' :: '人' :: out)
      else
        (expandStep data existing recurse rest).map (fun out => comp :: out)

/-- Embedding of `apply_substitutions_and_expansion` with an explicit
recursion-depth budget: `none` means the budget was exhausted, i.e. the
source recursion would be deeper than `fuel` (unbounded recursion in the
source corresponds to `none` at every budget). -/
def apply_substitutions_and_expansion (data : List (Char × List Char))
    (existing : List Char) : Nat → List Char → Option (List Char)
  | 0 => expandStep data existing (fun _ => none)
  | fuel + 1 =>
    expandStep data existing (apply_substitutions_and_expansion data existing fuel)

/-- Edges stored by the manual-correction pass of
`populate_radical_decomposition_mapping`. -/
def manual_correction_edges (existing : List Char) : List (Char × List Char) :=
  manualCorrections.filterMap (fun p =>
    if p.1 ∈ existing then
      if p.2.filter (· ∈ existing) ≠ [] ∧ 1 < (p.2.filter (· ∈ existing)).length then
        some (p.1, p.2.filter (· ∈ existing))
      else none
    else none)

/-- Edges stored by the generic pass of
`populate_radical_decomposition_mapping`: radicals with a manual
correction are skipped, the rest are expanded, filtered to the
vocabulary, and stored when the minimum-components policy holds. -/
def generic_edges (data : List (Char × List Char)) (existing : List Char)
    (fuel : Nat) : List (Char × List Char) → Option (List (Char × List Char))
  | [] => some []
  | entry :: rest =>
    if (alookup entry.1 manualCorrections).isSome then
      generic_edges data existing fuel rest
    else if entry.1 ∈ existing then
      (apply_substitutions_and_expansion data existing fuel entry.2).bind
        (fun expanded =>
          if expanded.filter (· ∈ existing) ≠ [] ∧
              (if entry.1 ∈ importantSingleDecompositions then 1 else 2) ≤
                (expanded.filter (· ∈ existing)).length then
            (generic_edges data existing fuel rest).map
              (fun out => (entry.1, expanded.filter (· ∈ existing)) :: out)
          else generic_edges data existing fuel rest)
    else generic_edges data existing fuel rest

/-- The whole decomposition table build: manual corrections first, then
the generic pass over the raw decomposition source.  The two passes touch
disjoint radicals, so list append models the keyed SQLite table. -/
def populate_radical_decomposition_mapping (data : List (Char × List Char))
    (existing : List Char) (fuel : Nat) : Option (List (Char × List Char)) :=
  (generic_edges data existing fuel data).map
    (fun g => manual_correction_edges existing ++ g)

/-- Check whether the decomposition table stores an edge for a radical. -/
def hasEdge : List (Char × List Char) → Char → Bool
  | [], _ => false
  | p :: rest, r => if p.1 = r then true else hasEdge rest r

/-- One-pass hierarchical expansion of the query engine (simulated in
`test_final_meat_search.py`): the radical itself plus every composite
whose stored edge lists it as a component. -/
def expand (edges : List (Char × List Char)) (r : Char) : List Char :=
  r :: edges.filterMap (fun p => if r ∈ p.2 then some p.1 else none)

theorem hasEdge_iff {edges : List (Char × List Char)} {r : Char} :
    hasEdge edges r = true ↔ ∃ comps, (r, comps) ∈ edges := by
  induction edges with
  | nil => simp [hasEdge]
  | cons p rest ih =>
    show (if p.1 = r then true else hasEdge rest r) = true ↔
      ∃ comps, (r, comps) ∈ p :: rest
    by_cases hp : p.1 = r
    · rw [if_pos hp]
      constructor
      · intro _
        exact ⟨p.2, by cases p; simp_all⟩
      · intro _
        rfl
    · rw [if_neg hp, ih]
      constructor
      · rintro ⟨comps, h⟩; exact ⟨comps, List.mem_cons_of_mem _ h⟩
      · rintro ⟨comps, h⟩
        rcases List.mem_cons.mp h with h | h
        · exact absurd (congrArg Prod.fst h.symm) hp
        · exact ⟨comps, h⟩

theorem manual_correction_edges_mem {existing : List Char} {R : Char}
    {comps : List Char} :
    (R, comps) ∈ manual_correction_edges existing ↔
      ∃ m, (R, m) ∈ manualCorrections ∧ R ∈ existing ∧
        comps = m.filter (· ∈ existing) ∧
        m.filter (· ∈ existing) ≠ [] ∧ 1 < (m.filter (· ∈ existing)).length := by
  unfold manual_correction_edges
  rw [List.mem_filterMap]
  constructor
  · rintro ⟨⟨a, b⟩, hp, hf⟩
    dsimp only at hf
    by_cases h1 : a ∈ existing
    · rw [if_pos h1] at hf
      by_cases h2 : b.filter (· ∈ existing) ≠ [] ∧
          1 < (b.filter (· ∈ existing)).length
      · rw [if_pos h2, Option.some_inj, Prod.mk.injEq] at hf
        obtain ⟨rfl, rfl⟩ := hf
        exact ⟨b, hp, h1, rfl, h2.1, h2.2⟩
      · rw [if_neg h2] at hf
        exact absurd hf (by simp)
    · rw [if_neg h1] at hf
      exact absurd hf (by simp)
  · rintro ⟨m, hm, hR, hc, hne, hlen⟩
    refine ⟨(R, m), hm, ?_⟩
    dsimp only
    rw [if_pos hR, if_pos ⟨hne, hlen⟩, hc]

theorem generic_edges_mem {data : List (Char × List Char)}
    {existing : List Char} {fuel : Nat} :
    ∀ {entries out}, generic_edges data existing fuel entries = some out →
      ∀ {R comps}, (R, comps) ∈ out →
        ∃ src expanded, (R, src) ∈ entries ∧
          alookup R manualCorrections = none ∧ R ∈ existing ∧
          apply_substitutions_and_expansion data existing fuel src = some expanded ∧
          comps = expanded.filter (· ∈ existing) ∧ comps ≠ [] ∧
          (if R ∈ importantSingleDecompositions then 1 else 2) ≤ comps.length := by
  intro entries
  induction entries with
  | nil =>
    intro out h R comps hm
    simp only [generic_edges, Option.some_inj] at h
    subst h
    simp at hm
  | cons entry rest ih =>
    intro out h R comps hm
    rw [generic_edges] at h
    by_cases hman : (alookup entry.1 manualCorrections).isSome
    · rw [if_pos hman] at h
      obtain ⟨src, expd, h1, h2, h3, h4, h5, h6, h7⟩ := ih h hm
      exact ⟨src, expd, List.mem_cons_of_mem _ h1, h2, h3, h4, h5, h6, h7⟩
    · rw [if_neg hman] at h
      by_cases hvoc : entry.1 ∈ existing
      · rw [if_pos hvoc] at h
        cases hexp : apply_substitutions_and_expansion data existing fuel entry.2 with
        | none => rw [hexp] at h; exact absurd h (by simp)
        | some expanded =>
          rw [hexp] at h
          simp only [Option.bind] at h
          by_cases hcond : expanded.filter (· ∈ existing) ≠ [] ∧
              (if entry.1 ∈ importantSingleDecompositions then 1 else 2) ≤
                (expanded.filter (· ∈ existing)).length
          · rw [if_pos hcond] at h
            cases hrest : generic_edges data existing fuel rest with
            | none => rw [hrest] at h; exact absurd h (by simp)
            | some outRest =>
              rw [hrest] at h
              simp only [Option.map_some', Option.some_inj] at h
              subst h
              rcases List.mem_cons.mp hm with hh | hh
              · have hR : R = entry.1 := congrArg Prod.fst hh
                have hcomp : comps = expanded.filter (· ∈ existing) :=
                  congrArg Prod.snd hh
                subst hR
                subst hcomp
                refine ⟨entry.2, expanded, ?_, ?_, hvoc, hexp, rfl, hcond.1, hcond.2⟩
                · have he : entry = (entry.1, entry.2) := by cases entry; rfl
                  exact he ▸ List.mem_cons_self _ _
                · simpa using hman
              · obtain ⟨src, expd, h1, h2, h3, h4, h5, h6, h7⟩ := ih hrest hh
                exact ⟨src, expd, List.mem_cons_of_mem _ h1, h2, h3, h4, h5, h6, h7⟩
          · rw [if_neg hcond] at h
            obtain ⟨src, expd, h1, h2, h3, h4, h5, h6, h7⟩ := ih h hm
            exact ⟨src, expd, List.mem_cons_of_mem _ h1, h2, h3, h4, h5, h6, h7⟩
      · rw [if_neg hvoc] at h
        obtain ⟨src, expd, h1, h2, h3, h4, h5, h6, h7⟩ := ih h hm
        exact ⟨src, expd, List.mem_cons_of_mem _ h1, h2, h3, h4, h5, h6, h7⟩

theorem generic_edges_complete {data : List (Char × List Char)}
    {existing : List Char} {fuel : Nat} {R : Char} {src expanded : List Char} :
    ∀ {entries out}, generic_edges data existing fuel entries = some out →
      (entries.map Prod.fst).Nodup → (R, src) ∈ entries →
      alookup R manualCorrections = none → R ∈ existing →
      apply_substitutions_and_expansion data existing fuel src = some expanded →
      expanded.filter (· ∈ existing) ≠ [] →
      (if R ∈ importantSingleDecompositions then 1 else 2) ≤
        (expanded.filter (· ∈ existing)).length →
      (R, expanded.filter (· ∈ existing)) ∈ out := by
  intro entries
  induction entries with
  | nil => intro out _ _ hmem; simp at hmem
  | cons entry rest ih =>
    intro out h hnd hmem hman hvoc hexp hne hlen
    rw [generic_edges] at h
    have hnd' : (rest.map Prod.fst).Nodup := by
      simp only [List.map_cons, List.nodup_cons] at hnd
      exact hnd.2
    rcases List.mem_cons.mp hmem with hh | hh
    · have hR : entry.1 = R := congrArg Prod.fst hh.symm
      have hsrc : entry.2 = src := congrArg Prod.snd hh.symm
      rw [hR, hsrc] at h
      rw [if_neg (by simp [hman])] at h
      rw [if_pos hvoc, hexp] at h
      simp only [Option.bind] at h
      rw [if_pos ⟨hne, hlen⟩] at h
      cases hrest : generic_edges data existing fuel rest with
      | none => rw [hrest] at h; exact absurd h (by simp)
      | some outRest =>
        rw [hrest] at h
        simp only [Option.map_some', Option.some_inj] at h
        subst h
        exact List.mem_cons_self _ _
    · by_cases hman1 : (alookup entry.1 manualCorrections).isSome
      · rw [if_pos hman1] at h
        exact ih h hnd' hh hman hvoc hexp hne hlen
      · rw [if_neg hman1] at h
        by_cases hvoc1 : entry.1 ∈ existing
        · rw [if_pos hvoc1] at h
          cases hexp1 : apply_substitutions_and_expansion data existing fuel entry.2 with
          | none => rw [hexp1] at h; exact absurd h (by simp)
          | some expanded1 =>
            rw [hexp1] at h
            simp only [Option.bind] at h
            by_cases hcond1 : expanded1.filter (· ∈ existing) ≠ [] ∧
                (if entry.1 ∈ importantSingleDecompositions then 1 else 2) ≤
                  (expanded1.filter (· ∈ existing)).length
            · rw [if_pos hcond1] at h
              cases hrest : generic_edges data existing fuel rest with
              | none => rw [hrest] at h; exact absurd h (by simp)
              | some outRest =>
                rw [hrest] at h
                simp only [Option.map_some', Option.some_inj] at h
                subst h
                exact List.mem_cons_of_mem _ (ih hrest hnd' hh hman hvoc hexp hne hlen)
            · rw [if_neg hcond1] at h
              exact ih h hnd' hh hman hvoc hexp hne hlen
        · rw [if_neg hvoc1] at h
          exact ih h hnd' hh hman hvoc hexp hne hlen

theorem populate_parts {data : List (Char × List Char)} {existing : List Char}
    {fuel : Nat} {edges : List (Char × List Char)}
    (hpop : populate_radical_decomposition_mapping data existing fuel = some edges) :
    ∃ g, generic_edges data existing fuel data = some g ∧
      edges = manual_correction_edges existing ++ g := by
  unfold populate_radical_decomposition_mapping at hpop
  cases hg : generic_edges data existing fuel data with
  | none => rw [hg] at hpop; exact absurd hpop (by simp)
  | some g =>
    rw [hg] at hpop
    simp only [Option.map_some', Option.some_inj] at hpop
    exact ⟨g, rfl, hpop.symm⟩

/-- Claim C2: every component of every stored decomposition edge — whether
stored by the manual-correction pass or by the generic
substitution/expansion pass — is a member of the canonical radical
vocabulary (the `existing_radicals` set given to the builder). -/
theorem c2_components_in_vocabulary (data : List (Char × List Char))
    (existing : List Char) (fuel : Nat) (edges : List (Char × List Char))
    (hpop : populate_radical_decomposition_mapping data existing fuel = some edges)
    (R : Char) (comps : List Char) (c : Char)
    (hedge : (R, comps) ∈ edges) (hc : c ∈ comps) : c ∈ existing := by
  obtain ⟨g, hg, hE⟩ := populate_parts hpop
  subst hE
  rcases List.mem_append.mp hedge with hmem | hmem
  · obtain ⟨m, _, _, hcomp, _, _⟩ := manual_correction_edges_mem.mp hmem
    rw [hcomp] at hc
    simp only [List.mem_filter, decide_eq_true_eq] at hc
    exact hc.2
  · obtain ⟨src, expanded, _, _, _, _, hcomp, _, _⟩ := generic_edges_mem hg hmem
    rw [hcomp] at hc
    simp only [List.mem_filter, decide_eq_true_eq] at hc
    exact hc.2

/-- Claim C4: a radical that has a manual-correction entry is never
reprocessed generically: any edge stored for it is exactly the manual
correction's component list filtered to the vocabulary, whatever its raw
source decomposition is. -/
theorem c4_manual_priority (data : List (Char × List Char))
    (existing : List Char) (fuel : Nat) (edges : List (Char × List Char))
    (R : Char) (mcomps : List Char)
    (hman : alookup R manualCorrections = some mcomps)
    (hpop : populate_radical_decomposition_mapping data existing fuel = some edges)
    (comps : List Char) (hedge : (R, comps) ∈ edges) :
    comps = mcomps.filter (· ∈ existing) := by
  obtain ⟨g, hg, hE⟩ := populate_parts hpop
  subst hE
  rcases List.mem_append.mp hedge with hmem | hmem
  · obtain ⟨m, hm, _, hcomp, _, _⟩ := manual_correction_edges_mem.mp hmem
    have hmeq : m = mcomps := mem_value_unique (by decide) hm (alookup_mem hman)
    rw [hcomp, hmeq]
  · obtain ⟨_, _, _, hnone, _, _, _, _, _⟩ := generic_edges_mem hg hmem
    rw [hman] at hnone
    exact absurd hnone (by simp)

/-- Claim C10: a manual-correction radical that is missing from the
vocabulary, or whose correction keeps fewer than two in-vocabulary
components, ends up with no stored edge at all: neither the manual pass
nor the generic pass (which skips it) stores anything for it. -/
theorem c10_manual_failure_no_edge (data : List (Char × List Char))
    (existing : List Char) (fuel : Nat) (edges : List (Char × List Char))
    (R : Char) (mcomps : List Char)
    (hman : alookup R manualCorrections = some mcomps)
    (hfail : R ∉ existing ∨ (mcomps.filter (· ∈ existing)).length < 2)
    (hpop : populate_radical_decomposition_mapping data existing fuel = some edges) :
    hasEdge edges R = false := by
  obtain ⟨g, hg, hE⟩ := populate_parts hpop
  subst hE
  cases hT : hasEdge (manual_correction_edges existing ++ g) R with
  | false => rfl
  | true =>
    exfalso
    obtain ⟨comps, hedge⟩ := hasEdge_iff.mp hT
    rcases List.mem_append.mp hedge with hmem | hmem
    · obtain ⟨m, hm, h1, _, _, hlen⟩ := manual_correction_edges_mem.mp hmem
      have hmeq : m = mcomps := mem_value_unique (by decide) hm (alookup_mem hman)
      subst hmeq
      rcases hfail with hf | hf
      · exact hf h1
      · omega
    · obtain ⟨_, _, _, hnone, _, _, _, _, _⟩ := generic_edges_mem hg hmem
      rw [hman] at hnone
      exact absurd hnone (by simp)

/-- Claim C3: an edge is stored for a generically processed radical iff
its final in-vocabulary component list has length at least two, or at
least one for the allow-listed radicals 冂 and ⺣; a manually corrected
radical is stored iff its filtered correction list has length at least
two.  Radicals failing the policy are silently discarded. -/
theorem c3_minimum_components_policy (data : List (Char × List Char))
    (existing : List Char) (fuel : Nat) (edges : List (Char × List Char))
    (hnd : (data.map Prod.fst).Nodup)
    (hpop : populate_radical_decomposition_mapping data existing fuel = some edges) :
    (∀ R src expanded, (R, src) ∈ data →
      alookup R manualCorrections = none → R ∈ existing →
      apply_substitutions_and_expansion data existing fuel src = some expanded →
      (hasEdge edges R = true ↔
        (2 ≤ (expanded.filter (· ∈ existing)).length ∨
          (R ∈ importantSingleDecompositions ∧
            1 ≤ (expanded.filter (· ∈ existing)).length)))) ∧
    (∀ R mcomps, alookup R manualCorrections = some mcomps → R ∈ existing →
      (hasEdge edges R = true ↔ 2 ≤ (mcomps.filter (· ∈ existing)).length)) := by
  obtain ⟨g, hg, hE⟩ := populate_parts hpop
  subst hE
  constructor
  · intro R src expanded hmem hman hvoc hexp
    constructor
    · intro hT
      obtain ⟨comps, hedge⟩ := hasEdge_iff.mp hT
      rcases List.mem_append.mp hedge with hm | hm
      · obtain ⟨m, hmm, _, _, _, _⟩ := manual_correction_edges_mem.mp hm
        have := alookup_of_mem_nodup (by decide) hmm
        rw [hman] at this
        exact absurd this (by simp)
      · obtain ⟨src', expd', h1, _, _, hexp', hcomp, hne, hlen⟩ :=
          generic_edges_mem hg hm
        have hsrc : src' = src := mem_value_unique hnd h1 hmem
        subst hsrc
        rw [hexp] at hexp'
        have hee : expd' = expanded := Option.some_inj.mp hexp'.symm
        subst hee
        subst hcomp
        by_cases hA : R ∈ importantSingleDecompositions
        · refine Or.inr ⟨hA, ?_⟩
          have := List.length_pos.mpr hne
          omega
        · rw [if_neg hA] at hlen
          exact Or.inl hlen
    · intro hRHS
      have hcond : expanded.filter (· ∈ existing) ≠ [] ∧
          (if R ∈ importantSingleDecompositions then 1 else 2) ≤
            (expanded.filter (· ∈ existing)).length := by
        rcases hRHS with h2 | ⟨hA, h1⟩
        · refine ⟨?_, ?_⟩
          · apply List.ne_nil_of_length_pos
            omega
          · split
            · omega
            · exact h2
        · refine ⟨?_, ?_⟩
          · apply List.ne_nil_of_length_pos
            omega
          · rw [if_pos hA]
            exact h1
      apply hasEdge_iff.mpr
      refine ⟨expanded.filter (· ∈ existing), List.mem_append.mpr (Or.inr ?_)⟩
      exact generic_edges_complete hg hnd hmem hman hvoc hexp hcond.1 hcond.2
  · intro R mcomps hman hvoc
    constructor
    · intro hT
      obtain ⟨comps, hedge⟩ := hasEdge_iff.mp hT
      rcases List.mem_append.mp hedge with hm | hm
      · obtain ⟨m, hmm, _, _, _, hlen⟩ := manual_correction_edges_mem.mp hm
        have hmeq : m = mcomps := mem_value_unique (by decide) hmm (alookup_mem hman)
        subst hmeq
        omega
      · obtain ⟨_, _, _, hnone, _, _, _, _, _⟩ := generic_edges_mem hg hm
        rw [hman] at hnone
        exact absurd hnone (by simp)
    · intro h2
      apply hasEdge_iff.mpr
      refine ⟨mcomps.filter (· ∈ existing), List.mem_append.mpr (Or.inl ?_)⟩
      apply manual_correction_edges_mem.mpr
      refine ⟨mcomps, alookup_mem hman, hvoc, rfl, ?_, ?_⟩
      · apply List.ne_nil_of_length_pos
        omega
      · omega

/-! ### Concrete fixture for the decomposition-builder claims -/

/-- Concrete raw decomposition source for the witnesses: 肉 has a manual
correction, 冂 exercises the substitution map and the single-component
allow-list, 坐 exercises recursive expansion through the missing
component 𫢉. -/
def dataW : List (Char × List Char) :=
  [('肉', ['冂', '仌']), ('仌', ['人', '人']), ('冂', ['丨', '𠃌']),
   ('坐', ['𫢉', '土']), ('𫢉', ['人', '人'])]

/-- Concrete canonical vocabulary for the witnesses. -/
def vocW : List Char := ['｜', '人', '冂', '肉', '土', '坐']

/-- Decomposition table built by the embedded builder from the fixture. -/
def edgesW : List (Char × List Char) :=
  [('肉', ['冂', '人', '人']), ('冂', ['｜']), ('坐', ['人', '人', '土'])]

theorem populate_dataW :
    populate_radical_decomposition_mapping dataW vocW 5 = some edgesW := by
  decide

/-- Witness for claim C2 at the concrete fixture. -/
theorem c2_components_in_vocabulary_witness :
    populate_radical_decomposition_mapping dataW vocW 5 = some edgesW ∧
      '人' ∈ vocW :=
  ⟨populate_dataW,
    c2_components_in_vocabulary dataW vocW 5 edgesW populate_dataW
      '肉' ['冂', '人', '人'] '人' (by decide) (by decide)⟩

/-- Witness for claim C4 at the concrete fixture: the stored edge for 肉
is exactly its filtered manual-correction list. -/
theorem c4_manual_priority_witness :
    populate_radical_decomposition_mapping dataW vocW 5 = some edgesW ∧
      (['冂', '人', '人'] : List Char) =
        (['冂', '人', '人'] : List Char).filter (· ∈ vocW) :=
  ⟨populate_dataW,
    c4_manual_priority dataW vocW 5 edgesW '肉' ['冂', '人', '人'] (by decide)
      populate_dataW ['冂', '人', '人'] (by decide)⟩

/-- Witness for claim C10 at the concrete fixture: 丷 is manually
corrected but missing from the vocabulary, so no edge is stored. -/
theorem c10_manual_failure_no_edge_witness :
    populate_radical_decomposition_mapping dataW vocW 5 = some edgesW ∧
      hasEdge edgesW '丷' = false :=
  ⟨populate_dataW,
    c10_manual_failure_no_edge dataW vocW 5 edgesW '丷' ['丶', '丶'] (by decide)
      (Or.inl (by decide)) populate_dataW⟩

/-- Witness for claim C3 at the concrete fixture: 坐 resolves to three
valid components, so its edge is stored. -/
theorem c3_minimum_components_policy_witness :
    populate_radical_decomposition_mapping dataW vocW 5 = some edgesW ∧
      hasEdge edgesW '坐' = true :=
  ⟨populate_dataW,
    ((c3_minimum_components_policy dataW vocW 5 edgesW (by decide)
        populate_dataW).1 '坐' ['𫢉', '土'] ['人', '人', '土'] (by decide)
      (by decide) (by decide) (by decide)).mpr (Or.inl (by decide))⟩

/-! ### Claim C1: flatness of the stored edge set -/

/-- Occurrence of a radical at some nesting depth in the recursively
resolved raw source decomposition of a character: either directly in its
source component list, or nested inside a component that itself has a
source decomposition entry. -/
inductive NestedIn (data : List (Char × List Char)) : Char → Char → Prop
  | direct {R : Char} {comps : List Char} {r : Char} :
      alookup R data = some comps → r ∈ comps → NestedIn data r R
  | nested {R : Char} {comps : List Char} {c r : Char} :
      alookup R data = some comps → c ∈ comps →
      NestedIn data r c → NestedIn data r R

/-- Occurrence of a radical in a component list behind intermediates that
the builder actually expands: every intermediate on the path is outside
the substitution map, outside the vocabulary, present in the raw source,
and not the hardcoded ice radical. -/
inductive ReachesThroughMissing (data : List (Char × List Char))
    (existing : List Char) : List Char → Char → Prop
  | direct {comps : List Char} {r : Char} :
      r ∈ comps → ReachesThroughMissing data existing comps r
  | step {comps : List Char} {c : Char} {sub : List Char} {r : Char} :
      c ∈ comps →
      alookup c chineseToJapaneseSubstitutions = none →
      c ∉ existing → alookup c data = some sub → c ≠ '仌' →
      ReachesThroughMissing data existing sub r →
      ReachesThroughMissing data existing comps r

theorem expandStep_keeps {data : List (Char × List Char)}
    {existing : List Char} {recurse : List Char → Option (List Char)} {r : Char}
    (hsub : alookup r chineseToJapaneseSubstitutions = none)
    (hvoc : r ∈ existing) :
    ∀ {comps out}, expandStep data existing recurse comps = some out →
      r ∈ comps → r ∈ out := by
  intro comps
  induction comps with
  | nil => intro out _ hr; simp at hr
  | cons comp rest ih =>
    intro out h hr
    cases hs : alookup comp chineseToJapaneseSubstitutions with
    | some s =>
      simp only [expandStep, hs] at h
      cases hrest : expandStep data existing recurse rest with
      | none => rw [hrest] at h; exact absurd h (by simp)
      | some outRest =>
        rw [hrest] at h
        simp only [Option.map_some', Option.some_inj] at h
        subst h
        rcases List.mem_cons.mp hr with hh | hh
        · subst hh; rw [hsub] at hs; exact absurd hs (by simp)
        · exact List.mem_cons_of_mem _ (ih hrest hh)
    | none =>
      simp only [expandStep, hs] at h
      by_cases hcnd : comp ∉ existing ∧ (alookup comp data).isSome
      · rw [if_pos hcnd] at h
        by_cases hice : comp ≠ '仌'
        · rw [if_pos hice] at h
          cases hrec : recurse ((alookup comp data).getD []) with
          | none => rw [hrec] at h; exact absurd h (by simp)
          | some recExp =>
            rw [hrec] at h
            simp only [Option.bind] at h
            cases hrest : expandStep data existing recurse rest with
            | none => rw [hrest] at h; exact absurd h (by simp)
            | some outRest =>
              rw [hrest] at h
              simp only [Option.map_some', Option.some_inj] at h
              subst h
              rcases List.mem_cons.mp hr with hh | hh
              · subst hh; exact absurd hvoc hcnd.1
              · exact List.mem_append_right _ (ih hrest hh)
        · rw [if_neg hice] at h
          cases hrest : expandStep data existing recurse rest with
          | none => rw [hrest] at h; exact absurd h (by simp)
          | some outRest =>
            rw [hrest] at h
            simp only [Option.map_some', Option.some_inj] at h
            subst h
            rcases List.mem_cons.mp hr with hh | hh
            · subst hh; exact absurd hvoc hcnd.1
            · exact List.mem_cons_of_mem _ (List.mem_cons_of_mem _ (ih hrest hh))
      · rw [if_neg hcnd] at h
        cases hrest : expandStep data existing recurse rest with
        | none => rw [hrest] at h; exact absurd h (by simp)
        | some outRest =>
          rw [hrest] at h
          simp only [Option.map_some', Option.some_inj] at h
          subst h
          rcases List.mem_cons.mp hr with hh | hh
          · subst hh; exact List.mem_cons_self _ _
          · exact List.mem_cons_of_mem _ (ih hrest hh)

theorem expandStep_splice {data : List (Char × List Char)}
    {existing : List Char} {recurse : List Char → Option (List Char)}
    {c : Char} {sub : List Char}
    (hsubst : alookup c chineseToJapaneseSubstitutions = none)
    (hvoc : c ∉ existing) (hdata : alookup c data = some sub)
    (hice : c ≠ '仌') :
    ∀ {comps out}, expandStep data existing recurse comps = some out →
      c ∈ comps →
      ∃ subOut, recurse sub = some subOut ∧ ∀ x ∈ subOut, x ∈ out := by
  intro comps
  induction comps with
  | nil => intro out _ hc; simp at hc
  | cons comp rest ih =>
    intro out h hc
    rcases List.mem_cons.mp hc with hh | hh
    · subst hh
      simp only [expandStep, hsubst] at h
      rw [if_pos ⟨hvoc, by rw [hdata]; rfl⟩, if_pos hice, hdata] at h
      cases hrec : recurse sub with
      | none =>
        simp only [Option.getD, hrec, Option.bind] at h
        exact absurd h (by simp)
      | some subOut =>
        simp only [Option.getD, hrec, Option.bind] at h
        cases hrest : expandStep data existing recurse rest with
        | none => rw [hrest] at h; exact absurd h (by simp)
        | some outRest =>
          rw [hrest] at h
          simp only [Option.map_some', Option.some_inj] at h
          subst h
          exact ⟨subOut, rfl, fun x hx => List.mem_append_left _ hx⟩
    · cases hs : alookup comp chineseToJapaneseSubstitutions with
      | some s =>
        simp only [expandStep, hs] at h
        cases hrest : expandStep data existing recurse rest with
        | none => rw [hrest] at h; exact absurd h (by simp)
        | some outRest =>
          rw [hrest] at h
          simp only [Option.map_some', Option.some_inj] at h
          subst h
          obtain ⟨subOut, h1, h2⟩ := ih hrest hh
          exact ⟨subOut, h1, fun x hx => List.mem_cons_of_mem _ (h2 x hx)⟩
      | none =>
        simp only [expandStep, hs] at h
        by_cases hcnd : comp ∉ existing ∧ (alookup comp data).isSome
        · rw [if_pos hcnd] at h
          by_cases hice1 : comp ≠ '仌'
          · rw [if_pos hice1] at h
            cases hrec : recurse ((alookup comp data).getD []) with
            | none => rw [hrec] at h; exact absurd h (by simp)
            | some recExp =>
              rw [hrec] at h
              simp only [Option.bind] at h
              cases hrest : expandStep data existing recurse rest with
              | none => rw [hrest] at h; exact absurd h (by simp)
              | some outRest =>
                rw [hrest] at h
                simp only [Option.map_some', Option.some_inj] at h
                subst h
                obtain ⟨subOut, h1, h2⟩ := ih hrest hh
                exact ⟨subOut, h1, fun x hx => List.mem_append_right _ (h2 x hx)⟩
          · rw [if_neg hice1] at h
            cases hrest : expandStep data existing recurse rest with
            | none => rw [hrest] at h; exact absurd h (by simp)
            | some outRest =>
              rw [hrest] at h
              simp only [Option.map_some', Option.some_inj] at h
              subst h
              obtain ⟨subOut, h1, h2⟩ := ih hrest hh
              exact ⟨subOut, h1, fun x hx =>
                List.mem_cons_of_mem _ (List.mem_cons_of_mem _ (h2 x hx))⟩
        · rw [if_neg hcnd] at h
          cases hrest : expandStep data existing recurse rest with
          | none => rw [hrest] at h; exact absurd h (by simp)
          | some outRest =>
            rw [hrest] at h
            simp only [Option.map_some', Option.some_inj] at h
            subst h
            obtain ⟨subOut, h1, h2⟩ := ih hrest hh
            exact ⟨subOut, h1, fun x hx => List.mem_cons_of_mem _ (h2 x hx)⟩

theorem applyExp_reaches {data : List (Char × List Char)}
    {existing : List Char} :
    ∀ {fuel : Nat} {comps out : List Char} {r : Char},
      ReachesThroughMissing data existing comps r →
      alookup r chineseToJapaneseSubstitutions = none →
      r ∈ existing →
      apply_substitutions_and_expansion data existing fuel comps = some out →
      r ∈ out := by
  intro fuel comps out r hreach
  induction hreach generalizing fuel out with
  | direct hr =>
    intro hsub hvocr h
    cases fuel with
    | zero =>
      rw [apply_substitutions_and_expansion] at h
      exact expandStep_keeps hsub hvocr h hr
    | succ n =>
      rw [apply_substitutions_and_expansion] at h
      exact expandStep_keeps hsub hvocr h hr
  | step hc hcs hcv hcd hci _ ih =>
    intro hsub hvocr h
    cases fuel with
    | zero =>
      rw [apply_substitutions_and_expansion] at h
      obtain ⟨subOut, hrec, _⟩ := expandStep_splice hcs hcv hcd hci h hc
      exact absurd hrec (by simp)
    | succ n =>
      rw [apply_substitutions_and_expansion] at h
      obtain ⟨subOut, hrec, hsubset⟩ := expandStep_splice hcs hcv hcd hci h hc
      exact hsubset _ (ih hsub hvocr hrec)

/-- Concrete counterexample input for claim C1: 口 sits at depth two in
the source hierarchy of 昌, behind the in-vocabulary intermediate 日. -/
def dataC1 : List (Char × List Char) :=
  [('昌', ['日', '日']), ('日', ['口', '一'])]

/-- Vocabulary for the C1 counterexample. -/
def vocC1 : List Char := ['昌', '日', '口', '一']

/-- Decomposition table the builder produces from the C1 counterexample
input. -/
def edgesC1 : List (Char × List Char) :=
  [('昌', ['日', '日']), ('日', ['口', '一'])]

/-- Claim C1 counterexample: 口 occurs at nesting depth two in the
recursively resolved source decomposition of 昌 (through the intermediate
日), 昌 has a stored edge, yet 昌 is not in the one-pass expansion of 口:
the builder flattens only through components missing from the vocabulary,
so nesting behind an in-vocabulary component is not captured in one
hop. -/
theorem c1_flat_expansion_counterexample :
    populate_radical_decomposition_mapping dataC1 vocC1 5 = some edgesC1 ∧
      hasEdge edgesC1 '昌' = true ∧ '口' ∈ vocC1 ∧
      NestedIn dataC1 '口' '昌' ∧ '昌' ∉ expand edgesC1 '口' :=
  ⟨by decide, by decide, by decide,
    @NestedIn.nested dataC1 '昌' ['日', '日'] '日' '口' (by decide) (by decide)
      (@NestedIn.direct dataC1 '日' ['口', '一'] '口' (by decide) (by decide)),
    by decide⟩

/-- Claim C1 (amended): for a radical r in the vocabulary and outside the
substitution map, and a composite R whose edge is stored via the generic
path, if r occurs in R's source decomposition nested only behind
components that the builder expands (each missing from the vocabulary,
outside the substitution map, present in the raw source and not the
hardcoded ice radical), then R is in the one-pass expansion of r. -/
theorem c1_expansion_captures_expanded_nesting (data : List (Char × List Char))
    (existing : List Char) (fuel : Nat) (edges : List (Char × List Char))
    (R : Char) (src comps : List Char) (r : Char)
    (hnd : (data.map Prod.fst).Nodup)
    (hpop : populate_radical_decomposition_mapping data existing fuel = some edges)
    (hdata : (R, src) ∈ data)
    (hman : alookup R manualCorrections = none)
    (hedge : (R, comps) ∈ edges)
    (hrs : alookup r chineseToJapaneseSubstitutions = none)
    (hrv : r ∈ existing)
    (hreach : ReachesThroughMissing data existing src r) :
    R ∈ expand edges r := by
  obtain ⟨g, hg, hE⟩ := populate_parts hpop
  subst hE
  rcases List.mem_append.mp hedge with hm | hm
  · obtain ⟨m, hmm, _, _, _, _⟩ := manual_correction_edges_mem.mp hm
    have hl := alookup_of_mem_nodup (by decide) hmm
    rw [hman] at hl
    exact absurd hl (by simp)
  · obtain ⟨src', expanded, h1, _, _, hexp, hcomp, _, _⟩ := generic_edges_mem hg hm
    have hsrc : src' = src := mem_value_unique hnd h1 hdata
    subst hsrc
    have hrout : r ∈ expanded := applyExp_reaches hreach hrs hrv hexp
    have hrcomps : r ∈ comps := by
      rw [hcomp]
      simp only [List.mem_filter, decide_eq_true_eq]
      exact ⟨hrout, hrv⟩
    unfold expand
    refine List.mem_cons_of_mem _ (List.mem_filterMap.mpr ⟨(R, comps), hedge, ?_⟩)
    simp [hrcomps]

/-- Witness for the amended claim C1 at the concrete fixture: 人 is
nested behind the missing component 𫢉 in the source decomposition of 坐,
and 坐 indeed appears in the one-pass expansion of 人. -/
theorem c1_expansion_captures_expanded_nesting_witness :
    populate_radical_decomposition_mapping dataW vocW 5 = some edgesW ∧
      '坐' ∈ expand edgesW '人' :=
  ⟨populate_dataW,
    c1_expansion_captures_expanded_nesting dataW vocW 5 edgesW
      '坐' ['𫢉', '土'] ['人', '人', '土'] '人'
      (by decide) populate_dataW (by decide) (by decide) (by decide)
      (by decide) (by decide)
      (@ReachesThroughMissing.step dataW vocW ['𫢉', '土'] '𫢉' ['人', '人'] '人'
        (by decide) (by decide) (by decide) (by decide) (by decide)
        (@ReachesThroughMissing.direct dataW vocW ['人', '人'] '人' (by decide)))⟩

/-! ### Claim C5: termination of the recursive resolution -/

/-- Condition under which the resolution procedure recursively expands a
component: outside the substitution map, outside the vocabulary, present
in the raw source, and not the hardcoded ice radical. -/
def Expandable (data : List (Char × List Char)) (existing : List Char)
    (c : Char) : Prop :=
  alookup c chineseToJapaneseSubstitutions = none ∧ c ∉ existing ∧
    (alookup c data).isSome ∧ c ≠ '仌'

instance (data : List (Char × List Char)) (existing : List Char) (c : Char) :
    Decidable (Expandable data existing c) := by
  unfold Expandable
  infer_instance

theorem expandStep_expand_none {data : List (Char × List Char)}
    {existing : List Char} {recurse : List Char → Option (List Char)}
    {c : Char} {cs : List Char}
    (hs : alookup c chineseToJapaneseSubstitutions = none)
    (hv : c ∉ existing) (hd : (alookup c data).isSome) (hi : c ≠ '仌')
    (hrec : recurse ((alookup c data).getD []) = none) :
    expandStep data existing recurse (c :: cs) = none := by
  simp only [expandStep, hs]
  rw [if_pos ⟨hv, hd⟩, if_pos hi, hrec]
  rfl

/-- Divergent input for claim C5: the component 囗 is missing from the
vocabulary and its own raw source entry decomposes back into itself, and
it is not the hardcoded ice radical. -/
def dataC5 : List (Char × List Char) :=
  [('回', ['囗', '口']), ('囗', ['囗', '丶'])]

/-- Vocabulary for the C5 counterexample. -/
def vocC5 : List Char := ['回', '口']

theorem applyExp_diverges_dataC5 : ∀ (n : Nat) (cs : List Char),
    apply_substitutions_and_expansion dataC5 vocC5 n ('囗' :: cs) = none := by
  intro n
  induction n with
  | zero =>
    intro cs
    rw [apply_substitutions_and_expansion]
    exact expandStep_expand_none (by decide) (by decide) (by decide) (by decide) rfl
  | succ n ih =>
    intro cs
    rw [apply_substitutions_and_expansion]
    apply expandStep_expand_none (by decide) (by decide) (by decide) (by decide)
    have hsub : (alookup '囗' dataC5).getD [] = '囗' :: ['丶'] := by decide
    rw [hsub]
    exact ih ['丶']

/-- Claim C5 counterexample: on a raw source in which the component 囗
(not the hardcoded ice radical) decomposes back into itself, the
recursive resolution exceeds every recursion-depth budget — the procedure
is not total on such inputs and the builder produces no edge set; only
the ice radical 仌 is short-circuited. -/
theorem c5_termination_counterexample :
    '囗' ∈ (alookup '囗' dataC5).getD [] ∧
      (∀ fuel, apply_substitutions_and_expansion dataC5 vocC5 fuel
          ['囗', '丶'] = none) ∧
      (∀ fuel, populate_radical_decomposition_mapping dataC5 vocC5 fuel = none) := by
  refine ⟨by decide, fun fuel => applyExp_diverges_dataC5 fuel ['丶'],
    fun fuel => ?_⟩
  unfold populate_radical_decomposition_mapping
  have hg : generic_edges dataC5 vocC5 fuel dataC5 = none := by
    show generic_edges dataC5 vocC5 fuel
      [('回', ['囗', '口']), ('囗', ['囗', '丶'])] = none
    rw [generic_edges]
    rw [if_neg (by decide), if_pos (by decide)]
    rw [applyExp_diverges_dataC5 fuel ['口']]
    rfl
  rw [hg]
  rfl

theorem expandStep_total (data : List (Char × List Char))
    (existing : List Char) (recurse : List Char → Option (List Char)) :
    ∀ comps : List Char,
      (∀ c ∈ comps, Expandable data existing c →
        (recurse ((alookup c data).getD [])).isSome) →
      (expandStep data existing recurse comps).isSome := by
  intro comps
  induction comps with
  | nil => intro _; simp [expandStep]
  | cons comp rest ih =>
    intro hH
    have hrest : (expandStep data existing recurse rest).isSome :=
      ih (fun c hc hE => hH c (List.mem_cons_of_mem _ hc) hE)
    cases hs : alookup comp chineseToJapaneseSubstitutions with
    | some s =>
      simp only [expandStep, hs]
      cases hr2 : expandStep data existing recurse rest with
      | none => rw [hr2] at hrest; simp at hrest
      | some o => simp
    | none =>
      simp only [expandStep, hs]
      by_cases hcnd : comp ∉ existing ∧ (alookup comp data).isSome
      · rw [if_pos hcnd]
        by_cases hice : comp ≠ '仌'
        · rw [if_pos hice]
          have hE : Expandable data existing comp := ⟨hs, hcnd.1, hcnd.2, hice⟩
          have hrec := hH comp (List.mem_cons_self _ _) hE
          cases hrc : recurse ((alookup comp data).getD []) with
          | none => rw [hrc] at hrec; simp at hrec
          | some recExp =>
            simp only [Option.bind]
            cases hr2 : expandStep data existing recurse rest with
            | none => rw [hr2] at hrest; simp at hrest
            | some o => simp
        · rw [if_neg hice]
          cases hr2 : expandStep data existing recurse rest with
          | none => rw [hr2] at hrest; simp at hrest
          | some o => simp
      · rw [if_neg hcnd]
        cases hr2 : expandStep data existing recurse rest with
        | none => rw [hr2] at hrest; simp at hrest
        | some o => simp

theorem applyExp_total_of_rank (data : List (Char × List Char))
    (existing : List Char) (rank : Char → Nat)
    (hrank : ∀ c sub, (c, sub) ∈ data → Expandable data existing c →
      ∀ c' ∈ sub, Expandable data existing c' → rank c' < rank c) :
    ∀ (n : Nat) (comps : List Char),
      (∀ c ∈ comps, Expandable data existing c → rank c < n) →
      (apply_substitutions_and_expansion data existing n comps).isSome := by
  intro n
  induction n with
  | zero =>
    intro comps hbound
    rw [apply_substitutions_and_expansion]
    apply expandStep_total
    intro c hc hE
    exact absurd (hbound c hc hE) (Nat.not_lt_zero _)
  | succ n ih =>
    intro comps hbound
    rw [apply_substitutions_and_expansion]
    apply expandStep_total
    intro c hc hE
    apply ih
    intro c' hc' hE'
    obtain ⟨sub, hsub⟩ := Option.isSome_iff_exists.mp hE.2.2.1
    rw [hsub] at hc'
    have h1 : rank c' < rank c :=
      hrank c sub (alookup_mem hsub) hE c' (by simpa using hc') hE'
    have h2 : rank c < n + 1 := hbound c hc hE
    omega

theorem le_foldr_max : ∀ {l : List Nat} {x : Nat}, x ∈ l → x ≤ l.foldr max 0 := by
  intro l
  induction l with
  | nil => intro x h; simp at h
  | cons y rest ih =>
    intro x h
    rcases List.mem_cons.mp h with h | h
    · subst h; exact le_max_left _ _
    · exact le_trans (ih h) (le_max_right _ _)

/-- Claim C5 (amended): the recursive resolution is total on every input
whose expansion-dependency graph admits a strictly decreasing ranking of
the expandable components — in particular on inputs whose only
self-referential component is the hardcoded ice radical 仌, which is
short-circuited instead of resolved generically.  It is not total on
inputs where any other component's entry decomposes back into itself. -/
theorem c5_termination_of_ranked (data : List (Char × List Char))
    (existing : List Char) (rank : Char → Nat)
    (hrank : ∀ c sub, (c, sub) ∈ data → Expandable data existing c →
      ∀ c' ∈ sub, Expandable data existing c' → rank c' < rank c) :
    ∃ fuel, ∀ comps : List Char,
      (apply_substitutions_and_expansion data existing fuel comps).isSome := by
  refine ⟨(data.map (fun p => rank p.1)).foldr max 0 + 1, fun comps => ?_⟩
  apply applyExp_total_of_rank data existing rank hrank
  intro c hc hE
  obtain ⟨sub, hsub⟩ := Option.isSome_iff_exists.mp hE.2.2.1
  have hm : rank c ∈ data.map (fun p => rank p.1) :=
    List.mem_map.mpr ⟨(c, sub), alookup_mem hsub, rfl⟩
  have hle := le_foldr_max hm
  omega

/-- Input for the C5 witness: the ice radical's own entry decomposes back
into itself, exactly the historically problematic shape. -/
def dataC5W : List (Char × List Char) := [('仌', ['仌', '人'])]

/-- Vocabulary for the C5 witness. -/
def vocC5W : List Char := ['人']

/-- Witness for the amended claim C5: on an input whose self-referential
component is the hardcoded 仌, the resolution succeeds at some budget. -/
theorem c5_termination_of_ranked_witness :
    '仌' ∈ (alookup '仌' dataC5W).getD [] ∧
      ∃ fuel, ∀ comps : List Char,
        (apply_substitutions_and_expansion dataC5W vocC5W fuel comps).isSome :=
  ⟨by decide,
    c5_termination_of_ranked dataC5W vocC5W (fun _ => 0) (by
      intro c sub hmem hE c' hc' hE'
      exfalso
      have hc : c = '仌' := by
        simp only [dataC5W, List.mem_singleton] at hmem
        exact congrArg Prod.fst hmem
      exact hE.2.2.2 hc)⟩

/-! ### The composition index builder
(`populate_radical_kanji_mapping_from_kradfile` plus the post-processing
enhancement pass of `build_database`) -/

/-- Row of the `radical_kanji_mapping` table (radical PRIMARY KEY). -/
structure Row where
  radical : Char
  stroke_count : Nat
  kanji_list : String
deriving DecidableEq

/-- Replace the kanji column of a row. -/
def setKanjiList (row : Row) (k : String) : Row :=
  ⟨row.radical, row.stroke_count, k⟩

/-- Primary-key lookup in the table. -/
def lookupRow : List Row → Char → Option Row
  | [], _ => none
  | row :: rest, r => if row.radical = r then some row else lookupRow rest r

/-- SQLite `INSERT OR REPLACE` keyed by the radical column. -/
def upsertRow : List Row → Row → List Row
  | [], newRow => [newRow]
  | row :: rest, newRow =>
    if row.radical = newRow.radical then newRow :: rest
    else row :: upsertRow rest newRow

/-- SQLite `UPDATE radical_kanji_mapping SET kanji_list = ? WHERE radical = ?`. -/
def updateKanjiList : List Row → Char → String → List Row
  | [], _, _ => []
  | row :: rest, r, k =>
    (if row.radical = r then setKanjiList row k else row) ::
      updateKanjiList rest r k

/-- One radkfile entry: the two fields the builder reads.  The stroke
count may be absent (`info.get('strokeCount', ...)`); an absent kanji
list is indistinguishable from an empty one (`info.get('kanji', [])`). -/
structure RadkInfo where
  strokeCount : Option Nat
  kanji : List Char
deriving DecidableEq

/-- Append a kanji to a radical's bucket, creating the bucket on first
use (the inner loop of the kradfile inversion). -/
def addToBucket : List (Char × List Char) → Char → Char → List (Char × List Char)
  | [], radical, kanji => [(radical, [kanji])]
  | p :: rest, radical, kanji =>
    if p.1 = radical then (p.1, p.2 ++ [kanji]) :: rest
    else p :: addToBucket rest radical kanji

/-- Add one kanji to the buckets of all its components. -/
def invertComponents (kanji : Char) :
    List Char → List (Char × List Char) → List (Char × List Char)
  | [], m => m
  | radical :: rest, m => invertComponents kanji rest (addToBucket m radical kanji)

/-- Accumulator loop of the kradfile inversion. -/
def invert_kradfile_go :
    List (Char × List Char) → List (Char × List Char) → List (Char × List Char)
  | [], m => m
  | entry :: rest, m => invert_kradfile_go rest (invertComponents entry.1 entry.2 m)

/-- Inversion of the kradfile (kanji → components) into
(radical → kanji list), radicals in first-appearance order. -/
def invert_kradfile (krad : List (Char × List Char)) : List (Char × List Char) :=
  invert_kradfile_go krad []

/-- Stable insertion into a list sorted by code point. -/
def insertSorted (c : Char) : List Char → List Char
  | [] => [c]
  | x :: xs => if c < x then c :: x :: xs else x :: insertSorted c xs

/-- Python `sorted` on a list of single-character strings: ascending by
code point. -/
def sortChars (l : List Char) : List Char := l.foldr insertSorted []

/-- Python `", ".join(...)` over single-character strings. -/
def joinKanji (l : List Char) : String :=
  String.intercalate ", " (l.map Char.toString)

/-- The `radical_stroke_counts` dictionary: one entry per radkfile
radical, missing stroke counts defaulting to 0. -/
def radicalStrokeCounts (radk : List (Char × RadkInfo)) : List (Char × Nat) :=
  radk.map (fun p => (p.1, p.2.strokeCount.getD 0))

/-- First pass of `populate_radical_kanji_mapping_from_kradfile`: one row
per inverted-kradfile radical, kanji list sorted, stroke count defaulting
to 1 when the radical is absent from the radkfile. -/
def rkmPass1 (radk : List (Char × RadkInfo)) :
    List (Char × List Char) → List Row → List Row
  | [], t => t
  | entry :: rest, t =>
    rkmPass1 radk rest (upsertRow t
      ⟨entry.1, (alookup entry.1 (radicalStrokeCounts radk)).getD 1,
        joinKanji (sortChars entry.2)⟩)

/-- Second pass: radicals present in the radkfile but absent from the
kradfile inversion are inserted with the radkfile's own kanji list and
the stroke-count default 0. -/
def rkmPass2 (krad : List (Char × List Char)) :
    List (Char × RadkInfo) → List Row → List Row
  | [], t => t
  | entry :: rest, t =>
    if (alookup entry.1 (invert_kradfile krad)).isSome then rkmPass2 krad rest t
    else rkmPass2 krad rest (upsertRow t
      ⟨entry.1, entry.2.strokeCount.getD 0, joinKanji entry.2.kanji⟩)

/-- Post-processing pass of `build_database`: every radical with a
nonempty radkfile kanji list gets its kanji column overwritten with that
list (in radkfile order). -/
def rkmPass3 : List (Char × RadkInfo) → List Row → List Row
  | [], t => t
  | entry :: rest, t =>
    if entry.2.kanji ≠ [] then
      rkmPass3 rest (updateKanjiList t entry.1 (joinKanji entry.2.kanji))
    else rkmPass3 rest t

/-- The `radical_kanji_mapping` table as produced by
`populate_radical_kanji_mapping_from_kradfile` followed by the
post-processing enhancement pass. -/
def populate_radical_kanji_mapping_from_kradfile
    (krad : List (Char × List Char)) (radk : List (Char × RadkInfo)) : List Row :=
  rkmPass3 radk (rkmPass2 krad radk (rkmPass1 radk (invert_kradfile krad) []))

theorem lookupRow_upsert_self {t : List Row} {row : Row} :
    lookupRow (upsertRow t row) row.radical = some row := by
  induction t with
  | nil => simp [upsertRow, lookupRow]
  | cons q rest ih =>
    by_cases h : q.radical = row.radical
    · simp [upsertRow, h, lookupRow]
    · simp [upsertRow, h, lookupRow, ih]

theorem lookupRow_upsert_other {t : List Row} {row : Row} {r : Char}
    (h : row.radical ≠ r) :
    lookupRow (upsertRow t row) r = lookupRow t r := by
  induction t with
  | nil => simp [upsertRow, lookupRow, h]
  | cons q rest ih =>
    by_cases hq : q.radical = row.radical
    · simp [upsertRow, hq, lookupRow, h, hq.symm ▸ h]
    · simp [upsertRow, hq, lookupRow, ih]

theorem lookupRow_update_eq {t : List Row} {r : Char} {k : String} :
    lookupRow (updateKanjiList t r k) r =
      (lookupRow t r).map (fun row => setKanjiList row k) := by
  induction t with
  | nil => simp [updateKanjiList, lookupRow]
  | cons q rest ih =>
    by_cases hq : q.radical = r
    · simp [updateKanjiList, hq, lookupRow, setKanjiList]
    · simp [updateKanjiList, hq, lookupRow, ih, setKanjiList]

theorem lookupRow_update_other {t : List Row} {r r' : Char} {k : String}
    (h : r' ≠ r) :
    lookupRow (updateKanjiList t r k) r' = lookupRow t r' := by
  induction t with
  | nil => simp [updateKanjiList, lookupRow]
  | cons q rest ih =>
    by_cases hq : q.radical = r
    · simp [updateKanjiList, hq, lookupRow, setKanjiList, Ne.symm h, ih]
    · simp [updateKanjiList, hq, lookupRow, ih]

theorem rkmPass1_lookup_none (radk : List (Char × RadkInfo)) :
    ∀ (entries : List (Char × List Char)) (t : List Row) (r : Char),
      alookup r entries = none →
      lookupRow (rkmPass1 radk entries t) r = lookupRow t r := by
  intro entries
  induction entries with
  | nil => intro t r _; rfl
  | cons e rest ih =>
    intro t r hlook
    rw [alookup] at hlook
    by_cases he : e.1 = r
    · rw [if_pos he] at hlook; exact absurd hlook (by simp)
    · rw [if_neg he] at hlook
      rw [rkmPass1, ih _ _ hlook]
      exact lookupRow_upsert_other he

theorem rkmPass1_lookup_mem (radk : List (Char × RadkInfo)) :
    ∀ (entries : List (Char × List Char)) (t : List Row) (r : Char)
      (bucket : List Char),
      (entries.map Prod.fst).Nodup →
      alookup r entries = some bucket →
      lookupRow (rkmPass1 radk entries t) r =
        some ⟨r, (alookup r (radicalStrokeCounts radk)).getD 1,
          joinKanji (sortChars bucket)⟩ := by
  intro entries
  induction entries with
  | nil => intro t r bucket _ hlook; simp [alookup] at hlook
  | cons e rest ih =>
    intro t r bucket hnd hlook
    have hnd' : (rest.map Prod.fst).Nodup := by
      simp only [List.map_cons, List.nodup_cons] at hnd
      exact hnd.2
    rw [alookup] at hlook
    by_cases he : e.1 = r
    · rw [if_pos he] at hlook
      have hb : e.2 = bucket := Option.some_inj.mp hlook
      have hrest : alookup r rest = none := by
        rw [alookup_eq_none]
        simp only [List.map_cons, List.nodup_cons] at hnd
        exact he ▸ hnd.1
      rw [rkmPass1, rkmPass1_lookup_none radk rest _ r hrest, he, hb]
      exact lookupRow_upsert_self
    · rw [if_neg he] at hlook
      rw [rkmPass1]
      exact ih _ r bucket hnd' hlook

theorem rkmPass2_lookup_none (krad : List (Char × List Char)) :
    ∀ (entries : List (Char × RadkInfo)) (t : List Row) (r : Char),
      alookup r entries = none →
      lookupRow (rkmPass2 krad entries t) r = lookupRow t r := by
  intro entries
  induction entries with
  | nil => intro t r _; rfl
  | cons e rest ih =>
    intro t r hlook
    rw [alookup] at hlook
    by_cases he : e.1 = r
    · rw [if_pos he] at hlook; exact absurd hlook (by simp)
    · rw [if_neg he] at hlook
      rw [rkmPass2]
      split
      · exact ih _ _ hlook
      · rw [ih _ _ hlook]
        exact lookupRow_upsert_other he

theorem rkmPass2_lookup_mem (krad : List (Char × List Char)) :
    ∀ (entries : List (Char × RadkInfo)) (t : List Row) (r : Char)
      (info : RadkInfo),
      (entries.map Prod.fst).Nodup →
      alookup r entries = some info →
      lookupRow (rkmPass2 krad entries t) r =
        if (alookup r (invert_kradfile krad)).isSome then lookupRow t r
        else some ⟨r, info.strokeCount.getD 0, joinKanji info.kanji⟩ := by
  intro entries
  induction entries with
  | nil => intro t r info _ hlook; simp [alookup] at hlook
  | cons e rest ih =>
    intro t r info hnd hlook
    have hnd' : (rest.map Prod.fst).Nodup := by
      simp only [List.map_cons, List.nodup_cons] at hnd
      exact hnd.2
    rw [alookup] at hlook
    by_cases he : e.1 = r
    · rw [if_pos he] at hlook
      have hi : e.2 = info := Option.some_inj.mp hlook
      have hrest : alookup r rest = none := by
        rw [alookup_eq_none]
        simp only [List.map_cons, List.nodup_cons] at hnd
        exact he ▸ hnd.1
      rw [rkmPass2, he]
      by_cases hInv : (alookup r (invert_kradfile krad)).isSome
      · rw [if_pos hInv, if_pos hInv]
        exact rkmPass2_lookup_none krad rest _ r hrest
      · rw [if_neg hInv, if_neg hInv, rkmPass2_lookup_none krad rest _ r hrest, hi]
        exact lookupRow_upsert_self
    · rw [if_neg he] at hlook
      rw [rkmPass2]
      split
      · exact ih _ r info hnd' hlook
      · rw [ih _ r info hnd' hlook]
        split
        · exact lookupRow_upsert_other he
        · rfl

theorem rkmPass3_lookup_none :
    ∀ (entries : List (Char × RadkInfo)) (t : List Row) (r : Char),
      alookup r entries = none →
      lookupRow (rkmPass3 entries t) r = lookupRow t r := by
  intro entries
  induction entries with
  | nil => intro t r _; rfl
  | cons e rest ih =>
    intro t r hlook
    rw [alookup] at hlook
    by_cases he : e.1 = r
    · rw [if_pos he] at hlook; exact absurd hlook (by simp)
    · rw [if_neg he] at hlook
      rw [rkmPass3]
      split
      · rw [ih _ _ hlook]
        exact lookupRow_update_other (Ne.symm he)
      · exact ih _ _ hlook

theorem rkmPass3_lookup_mem :
    ∀ (entries : List (Char × RadkInfo)) (t : List Row) (r : Char)
      (info : RadkInfo),
      (entries.map Prod.fst).Nodup →
      alookup r entries = some info →
      lookupRow (rkmPass3 entries t) r =
        if info.kanji ≠ [] then
          (lookupRow t r).map (fun row => setKanjiList row (joinKanji info.kanji))
        else lookupRow t r := by
  intro entries
  induction entries with
  | nil => intro t r info _ hlook; simp [alookup] at hlook
  | cons e rest ih =>
    intro t r info hnd hlook
    have hnd' : (rest.map Prod.fst).Nodup := by
      simp only [List.map_cons, List.nodup_cons] at hnd
      exact hnd.2
    rw [alookup] at hlook
    by_cases he : e.1 = r
    · rw [if_pos he] at hlook
      have hi : e.2 = info := Option.some_inj.mp hlook
      have hrest : alookup r rest = none := by
        rw [alookup_eq_none]
        simp only [List.map_cons, List.nodup_cons] at hnd
        exact he ▸ hnd.1
      rw [rkmPass3]
      by_cases hk : e.2.kanji ≠ []
      · rw [if_pos hk, rkmPass3_lookup_none rest _ r hrest, if_pos (hi ▸ hk), he,
          hi, lookupRow_update_eq]
      · rw [if_neg hk, rkmPass3_lookup_none rest _ r hrest, if_neg (hi ▸ hk)]
    · rw [if_neg he] at hlook
      rw [rkmPass3]
      split
      · rw [ih _ r info hnd' hlook, lookupRow_update_other (Ne.symm he)]
      · exact ih _ r info hnd' hlook

theorem addToBucket_keys (radical kanji : Char) :
    ∀ m : List (Char × List Char),
      (addToBucket m radical kanji).map Prod.fst =
        if radical ∈ m.map Prod.fst then m.map Prod.fst
        else m.map Prod.fst ++ [radical] := by
  intro m
  induction m with
  | nil => simp [addToBucket]
  | cons p rest ih =>
    by_cases hp : p.1 = radical
    · simp [addToBucket, hp]
    · simp only [addToBucket, if_neg hp, List.map_cons, ih, List.mem_cons]
      by_cases hm : radical ∈ rest.map Prod.fst
      · simp [hm, Ne.symm hp]
      · simp [hm, Ne.symm hp]

theorem addToBucket_keys_nodup {m : List (Char × List Char)}
    {radical kanji : Char} (h : (m.map Prod.fst).Nodup) :
    ((addToBucket m radical kanji).map Prod.fst).Nodup := by
  rw [addToBucket_keys]
  split
  · exact h
  · rename_i hnot
    simp [List.nodup_append, h, hnot]

theorem addToBucket_keys_sub {m : List (Char × List Char)}
    {radical kanji x : Char}
    (h : x ∈ (addToBucket m radical kanji).map Prod.fst) :
    x ∈ m.map Prod.fst ∨ x = radical := by
  rw [addToBucket_keys] at h
  split at h
  · exact Or.inl h
  · rcases List.mem_append.mp h with h | h
    · exact Or.inl h
    · exact Or.inr (List.mem_singleton.mp h)

theorem invertComponents_keys_nodup {kanji : Char} :
    ∀ {comps : List Char} {m : List (Char × List Char)},
      (m.map Prod.fst).Nodup →
      ((invertComponents kanji comps m).map Prod.fst).Nodup := by
  intro comps
  induction comps with
  | nil => intro m h; exact h
  | cons c rest ih => intro m h; exact ih (addToBucket_keys_nodup h)

theorem invertComponents_keys_sub {kanji : Char} :
    ∀ {comps : List Char} {m : List (Char × List Char)} {x : Char},
      x ∈ (invertComponents kanji comps m).map Prod.fst →
      x ∈ m.map Prod.fst ∨ x ∈ comps := by
  intro comps
  induction comps with
  | nil => intro m x h; exact Or.inl h
  | cons c rest ih =>
    intro m x h
    rcases ih h with h | h
    · rcases addToBucket_keys_sub h with h | h
      · exact Or.inl h
      · exact Or.inr (h ▸ List.mem_cons_self _ _)
    · exact Or.inr (List.mem_cons_of_mem _ h)

theorem invert_kradfile_go_keys_nodup :
    ∀ (krad m : List (Char × List Char)), (m.map Prod.fst).Nodup →
      ((invert_kradfile_go krad m).map Prod.fst).Nodup := by
  intro krad
  induction krad with
  | nil => intro m h; exact h
  | cons e rest ih => intro m h; exact ih _ (invertComponents_keys_nodup h)

theorem invert_kradfile_keys_nodup (krad : List (Char × List Char)) :
    ((invert_kradfile krad).map Prod.fst).Nodup :=
  invert_kradfile_go_keys_nodup krad [] (by simp)

theorem invert_kradfile_go_keys_sub :
    ∀ (krad m : List (Char × List Char)) (x : Char),
      x ∈ (invert_kradfile_go krad m).map Prod.fst →
      x ∈ m.map Prod.fst ∨ ∃ p ∈ krad, x ∈ p.2 := by
  intro krad
  induction krad with
  | nil => intro m x h; exact Or.inl h
  | cons e rest ih =>
    intro m x h
    rcases ih _ x h with h | ⟨p, hp, hx⟩
    · rcases invertComponents_keys_sub h with h | h
      · exact Or.inl h
      · exact Or.inr ⟨e, List.mem_cons_self _ _, h⟩
    · exact Or.inr ⟨p, List.mem_cons_of_mem _ hp, hx⟩

theorem invert_kradfile_not_occurring {krad : List (Char × List Char)}
    {radical : Char} (habs : ∀ p ∈ krad, radical ∉ p.2) :
    alookup radical (invert_kradfile krad) = none := by
  rw [alookup_eq_none]
  intro hmem
  rcases invert_kradfile_go_keys_sub krad [] radical hmem with h | ⟨p, hp, hx⟩
  · simp at h
  · exact habs p hp hx

theorem alookup_strokeCounts {radk : List (Char × RadkInfo)} {r : Char} :
    alookup r (radicalStrokeCounts radk) =
      (alookup r radk).map (fun info => info.strokeCount.getD 0) := by
  induction radk with
  | nil => rfl
  | cons p rest ih =>
    by_cases hp : p.1 = r
    · simp [radicalStrokeCounts, alookup, hp]
    · simp only [radicalStrokeCounts, List.map_cons, alookup, hp, if_neg,
        not_false_iff]
      simpa [radicalStrokeCounts] using ih

/-! ### Claims C6, C7, C8 on the composition index -/

/-- Concrete kradfile for the C6 counterexample. -/
def kradC6 : List (Char × List Char) := [('明', ['日', '月'])]

/-- Concrete radkfile for the C6 counterexample: the kanji list is not
sorted by code point (明 < 晶). -/
def radkC6 : List (Char × RadkInfo) := [('日', ⟨some 4, ['晶', '明']⟩)]

/-- Claim C6 counterexample: the final row for 日 stores the radkfile's
kanji list in radkfile order after the enhancement pass, which is not the
comma-joined form of the sorted list — neither of the sorted candidate
buckets joins to the stored string.  Only the kradfile-inversion pass
sorts; the radkfile-only insert and the enhancement overwrite do not. -/
theorem c6_sorted_counterexample :
    lookupRow (populate_radical_kanji_mapping_from_kradfile kradC6 radkC6) '日' =
        some ⟨'日', 4, joinKanji ['晶', '明']⟩ ∧
      joinKanji ['晶', '明'] ≠ joinKanji (sortChars ['晶', '明']) ∧
      joinKanji ['晶', '明'] ≠ joinKanji (sortChars ['明']) := by
  decide

/-- Claim C6 (amended): only rows whose final value comes from the
kradfile-inversion pass are sorted: a radical with a nonempty radkfile
kanji list ends up with that list comma-joined in radkfile order, while a
radical of the inversion with no nonempty radkfile list keeps the sorted,
comma-joined inversion bucket. -/
theorem c6_sorted_only_inversion_rows (krad : List (Char × List Char))
    (radk : List (Char × RadkInfo)) (hnd : (radk.map Prod.fst).Nodup) :
    (∀ radical info, (radical, info) ∈ radk → info.kanji ≠ [] →
      ∃ row, lookupRow (populate_radical_kanji_mapping_from_kradfile krad radk)
          radical = some row ∧ row.kanji_list = joinKanji info.kanji) ∧
    (∀ radical bucket, (radical, bucket) ∈ invert_kradfile krad →
      (∀ info, (radical, info) ∈ radk → info.kanji = []) →
      ∃ row, lookupRow (populate_radical_kanji_mapping_from_kradfile krad radk)
          radical = some row ∧ row.kanji_list = joinKanji (sortChars bucket)) := by
  constructor
  · intro radical info hmem hne
    have hlook : alookup radical radk = some info := alookup_of_mem_nodup hnd hmem
    unfold populate_radical_kanji_mapping_from_kradfile
    have h3 := rkmPass3_lookup_mem radk
      (rkmPass2 krad radk (rkmPass1 radk (invert_kradfile krad) [])) radical info
      hnd hlook
    rw [if_pos hne] at h3
    rw [h3]
    by_cases hInv : (alookup radical (invert_kradfile krad)).isSome
    · obtain ⟨bucket, hbucket⟩ := Option.isSome_iff_exists.mp hInv
      have h2 := rkmPass2_lookup_mem krad radk
        (rkmPass1 radk (invert_kradfile krad) []) radical info hnd hlook
      rw [if_pos hInv] at h2
      rw [h2, rkmPass1_lookup_mem radk (invert_kradfile krad) [] radical bucket
        (invert_kradfile_keys_nodup krad) hbucket]
      exact ⟨_, rfl, rfl⟩
    · have h2 := rkmPass2_lookup_mem krad radk
        (rkmPass1 radk (invert_kradfile krad) []) radical info hnd hlook
      rw [if_neg hInv] at h2
      rw [h2]
      exact ⟨_, rfl, rfl⟩
  · intro radical bucket hmem hall
    have hbucket : alookup radical (invert_kradfile krad) = some bucket :=
      alookup_of_mem_nodup (invert_kradfile_keys_nodup krad) hmem
    unfold populate_radical_kanji_mapping_from_kradfile
    cases hlookr : alookup radical radk with
    | none =>
      rw [rkmPass3_lookup_none radk _ radical hlookr,
        rkmPass2_lookup_none krad radk _ radical hlookr,
        rkmPass1_lookup_mem radk (invert_kradfile krad) [] radical bucket
          (invert_kradfile_keys_nodup krad) hbucket]
      exact ⟨_, rfl, rfl⟩
    | some info =>
      have hkempty : info.kanji = [] := hall info (alookup_mem hlookr)
      have h3 := rkmPass3_lookup_mem radk
        (rkmPass2 krad radk (rkmPass1 radk (invert_kradfile krad) [])) radical
        info hnd hlookr
      rw [if_neg (by simp [hkempty])] at h3
      have h2 := rkmPass2_lookup_mem krad radk
        (rkmPass1 radk (invert_kradfile krad) []) radical info hnd hlookr
      rw [if_pos (by rw [hbucket]; rfl)] at h2
      rw [h3, h2, rkmPass1_lookup_mem radk (invert_kradfile krad) [] radical
        bucket (invert_kradfile_keys_nodup krad) hbucket]
      exact ⟨_, rfl, rfl⟩

/-- Witness for the amended claim C6: the enhanced row for 日 stores the
radkfile list comma-joined in radkfile order. -/
theorem c6_sorted_only_inversion_rows_witness :
    ∃ row, lookupRow (populate_radical_kanji_mapping_from_kradfile kradC6 radkC6)
        '日' = some row ∧ row.kanji_list = joinKanji ['晶', '明'] :=
  (c6_sorted_only_inversion_rows kradC6 radkC6 (by decide)).1
    '日' ⟨some 4, ['晶', '明']⟩ (by decide) (by decide)

/-- Concrete kradfile for the C7 counterexample. -/
def kradC7 : List (Char × List Char) := [('休', ['人', '木'])]

/-- Concrete radkfile for the C7 counterexample: 乙 occurs in no kradfile
composition but has its own kanji list. -/
def radkC7 : List (Char × RadkInfo) := [('乙', ⟨some 1, ['乱']⟩)]

/-- Claim C7 counterexample: the radkfile-only radical 乙 does get a row,
but its characters column is the radkfile entry's own kanji list, not
empty. -/
theorem c7_empty_bucket_counterexample :
    (∀ p ∈ kradC7, '乙' ∉ p.2) ∧
      lookupRow (populate_radical_kanji_mapping_from_kradfile kradC7 radkC7) '乙' =
        some ⟨'乙', 1, joinKanji ['乱']⟩ ∧
      joinKanji ['乱'] ≠ "" := by
  decide

/-- Claim C7 (amended): a radical present in the radkfile but occurring
in no character's kradfile composition still gets а row; its characters
column is the radkfile entry's own kanji list (comma-joined), hence empty
exactly when that list is empty, and its stroke count is the radkfile
value with default 0. -/
theorem c7_radkfile_only_row (krad : List (Char × List Char))
    (radk : List (Char × RadkInfo)) (hnd : (radk.map Prod.fst).Nodup)
    (radical : Char) (info : RadkInfo)
    (hmem : (radical, info) ∈ radk)
    (habs : ∀ p ∈ krad, radical ∉ p.2) :
    lookupRow (populate_radical_kanji_mapping_from_kradfile krad radk) radical =
      some ⟨radical, info.strokeCount.getD 0, joinKanji info.kanji⟩ := by
  have hlook : alookup radical radk = some info := alookup_of_mem_nodup hnd hmem
  have hInv : alookup radical (invert_kradfile krad) = none :=
    invert_kradfile_not_occurring habs
  unfold populate_radical_kanji_mapping_from_kradfile
  have h2 := rkmPass2_lookup_mem krad radk
    (rkmPass1 radk (invert_kradfile krad) []) radical info hnd hlook
  rw [if_neg (by simp [hInv])] at h2
  by_cases hk : info.kanji ≠ []
  · have h3 := rkmPass3_lookup_mem radk
      (rkmPass2 krad radk (rkmPass1 radk (invert_kradfile krad) [])) radical
      info hnd hlook
    rw [if_pos hk] at h3
    rw [h3, h2]
    rfl
  · have h3 := rkmPass3_lookup_mem radk
      (rkmPass2 krad radk (rkmPass1 radk (invert_kradfile krad) [])) radical
      info hnd hlook
    rw [if_neg hk] at h3
    rw [h3, h2]

/-- Witness for the amended claim C7 at the concrete fixture. -/
theorem c7_radkfile_only_row_witness :
    (∀ p ∈ kradC7, '乙' ∉ p.2) ∧
      lookupRow (populate_radical_kanji_mapping_from_kradfile kradC7 radkC7) '乙' =
        some ⟨'乙', (some 1 : Option Nat).getD 0, joinKanji ['乱']⟩ :=
  ⟨by decide,
    c7_radkfile_only_row kradC7 radkC7 (by decide) '乙' ⟨some 1, ['乱']⟩
      (by decide) (by decide)⟩

/-- Concrete kradfile for the C8 counterexample. -/
def kradC8 : List (Char × List Char) := [('休', ['人', '木'])]

/-- Concrete radkfile for the C8 counterexample: 一 genuinely has one
stroke. -/
def radkC8 : List (Char × RadkInfo) := [('一', ⟨some 1, ['丁']⟩)]

/-- Claim C8 counterexample: the radical 人 has no stroke-count data (it
is absent from the radkfile) yet its stored stroke count is 1 — exactly
the value stored for 一, whose stroke count 1 is genuine data.  The
fallback is the ordinary integer 1, not a sentinel distinguishable from
every real count. -/
theorem c8_sentinel_counterexample :
    alookup '人' radkC8 = none ∧
      lookupRow (populate_radical_kanji_mapping_from_kradfile kradC8 radkC8) '人' =
        some ⟨'人', 1, joinKanji ['休']⟩ ∧
      alookup '一' radkC8 = some ⟨some 1, ['丁']⟩ ∧
      lookupRow (populate_radical_kanji_mapping_from_kradfile kradC8 radkC8) '一' =
        some ⟨'一', 1, joinKanji ['丁']⟩ := by
  decide

/-- Claim C8 (amended): a radical with no stroke data is stored with the
default 1 when it is absent from the radkfile entirely
(kradfile-inversion path) and with 0 when its radkfile entry lacks a
stroke count; 1 coincides with a genuine one-stroke count, so the
defaults are not distinguishable sentinels. -/
theorem c8_stroke_count_defaults (krad : List (Char × List Char))
    (radk : List (Char × RadkInfo)) (hnd : (radk.map Prod.fst).Nodup) :
    (∀ radical bucket, (radical, bucket) ∈ invert_kradfile krad →
      alookup radical radk = none →
      ∃ row, lookupRow (populate_radical_kanji_mapping_from_kradfile krad radk)
          radical = some row ∧ row.stroke_count = 1) ∧
    (∀ radical info, (radical, info) ∈ radk → info.strokeCount = none →
      ∃ row, lookupRow (populate_radical_kanji_mapping_from_kradfile krad radk)
          radical = some row ∧ row.stroke_count = 0) := by
  constructor
  · intro radical bucket hmem hnone
    have hbucket : alookup radical (invert_kradfile krad) = some bucket :=
      alookup_of_mem_nodup (invert_kradfile_keys_nodup krad) hmem
    unfold populate_radical_kanji_mapping_from_kradfile
    rw [rkmPass3_lookup_none radk _ radical hnone,
      rkmPass2_lookup_none krad radk _ radical hnone,
      rkmPass1_lookup_mem radk (invert_kradfile krad) [] radical bucket
        (invert_kradfile_keys_nodup krad) hbucket]
    refine ⟨_, rfl, ?_⟩
    rw [alookup_strokeCounts, hnone]
    rfl
  · intro radical info hmem hsc
    have hlook : alookup radical radk = some info := alookup_of_mem_nodup hnd hmem
    unfold populate_radical_kanji_mapping_from_kradfile
    by_cases hInv : (alookup radical (invert_kradfile krad)).isSome
    · obtain ⟨bucket, hbucket⟩ := Option.isSome_iff_exists.mp hInv
      have h2 := rkmPass2_lookup_mem krad radk
        (rkmPass1 radk (invert_kradfile krad) []) radical info hnd hlook
      rw [if_pos hInv] at h2
      have h1 := rkmPass1_lookup_mem radk (invert_kradfile krad) [] radical
        bucket (invert_kradfile_keys_nodup krad) hbucket
      by_cases hk : info.kanji ≠ []
      · have h3 := rkmPass3_lookup_mem radk
          (rkmPass2 krad radk (rkmPass1 radk (invert_kradfile krad) []))
          radical info hnd hlook
        rw [if_pos hk] at h3
        rw [h3, h2, h1]
        refine ⟨_, rfl, ?_⟩
        rw [alookup_strokeCounts, hlook]
        simp [hsc, setKanjiList]
      · have h3 := rkmPass3_lookup_mem radk
          (rkmPass2 krad radk (rkmPass1 radk (invert_kradfile krad) []))
          radical info hnd hlook
        rw [if_neg hk] at h3
        rw [h3, h2, h1]
        refine ⟨_, rfl, ?_⟩
        rw [alookup_strokeCounts, hlook]
        simp [hsc, setKanjiList]
    · have h2 := rkmPass2_lookup_mem krad radk
        (rkmPass1 radk (invert_kradfile krad) []) radical info hnd hlook
      rw [if_neg hInv] at h2
      by_cases hk : info.kanji ≠ []
      · have h3 := rkmPass3_lookup_mem radk
          (rkmPass2 krad radk (rkmPass1 radk (invert_kradfile krad) []))
          radical info hnd hlook
        rw [if_pos hk] at h3
        rw [h3, h2]
        refine ⟨_, rfl, ?_⟩
        rw [hsc]
        rfl
      · have h3 := rkmPass3_lookup_mem radk
          (rkmPass2 krad radk (rkmPass1 radk (invert_kradfile krad) []))
          radical info hnd hlook
        rw [if_neg hk] at h3
        rw [h3, h2]
        refine ⟨_, rfl, ?_⟩
        rw [hsc]
        rfl

/-- Witness for the amended claim C8: 人 has no radkfile entry and its
stored stroke count is the default 1. -/
theorem c8_stroke_count_defaults_witness :
    alookup '人' radkC8 = none ∧
      ∃ row, lookupRow (populate_radical_kanji_mapping_from_kradfile kradC8 radkC8)
          '人' = some row ∧ row.stroke_count = 1 :=
  ⟨by decide,
    (c8_stroke_count_defaults kradC8 radkC8 (by decide)).1 '人' ['休']
      (by decide) (by decide)⟩

end KanjiReader
